import Mathlib

/-!
Verification development for the `embedding_annotation` repository.

The Python sources under `src/embedding_annotation/` (`annotate.py`,
`region.py`) are shallowly embedded below: numpy float arrays become
`List ℚ`, Python dicts (which preserve insertion order) become
association lists `List (key × value)`, raised exceptions become
`Except MergeErr`, and shapely polygons are modelled as finite sets of
unit grid cells (`Finset ℕ`), on which `area` is the cardinality and
`intersection` is set intersection.

The rule algebra (`veca.rules` / `data.py`), the graph utilities
(`graph.py`) and the pairwise metrics (`metrics.py`) are not part of the
sources under `src/`; only their tests (`tests/test_data.py`) and
callers (`annotate.py`) are.  Those definitions are modelled from the
spec, and each such definition carries a doc comment starting with
`Modelled from the spec:`.
-/

namespace EmbAnnot

/-- Modelled from the spec: the tagged `Rule` variant of §3
(`IntervalRule(lower?, upper?)`, `EqualityRule(value)`,
`OneOfRule(values)`); the class definitions live in `veca.rules` /
`data.py`, which is absent from `src/` (only `tests/test_data.py`
exercises it).  Numeric values are modelled as rationals. -/
inductive Rule where
  | interval (lower upper : Option ℚ)
  | equality (value : ℚ)
  | oneOf (values : Finset ℚ)
  deriving DecidableEq

/-- Unified error type for every exception the embedded code can raise:
`incompatibleRule` is `IncompatibleRuleError`; `shapeMismatch` is the
`RuntimeError` raised by `CompositeDensity.__init__` on a grid mismatch
(`ShapeMismatchError` of the spec); `valueError` is the numpy `ValueError`
from `np.vstack` on mismatched row lengths; `keyError` / `indexError`
are Python dict/list lookup failures; `outOfFuel` marks exhaustion of
the explicit fuel bounding the `while` fixpoint loop. -/
inductive MergeErr where
  | incompatibleRule
  | shapeMismatch
  | valueError
  | keyError
  | indexError
  | outOfFuel
  deriving DecidableEq

/-- `obLE l u`: the lower bound `l` lies at or below the upper bound `u`,
where a missing (open) lower bound acts as `-∞` and a missing upper bound
as `+∞`. -/
def obLE : Option ℚ → Option ℚ → Bool
  | none, _ => true
  | _, none => true
  | some a, some b => decide (a ≤ b)

/-- Minimum of two lower bounds; an open (unset) bound on either side wins. -/
def omin : Option ℚ → Option ℚ → Option ℚ
  | none, _ => none
  | _, none => none
  | some a, some b => some (min a b)

/-- Maximum of two upper bounds; an open (unset) bound on either side wins. -/
def omax : Option ℚ → Option ℚ → Option ℚ
  | none, _ => none
  | _, none => none
  | some a, some b => some (max a b)

/-- Modelled from the spec: `Rule.can_merge_with` (§3, pinned by
`TestIntervalRule` in `tests/test_data.py`): intervals merge only with
intervals that overlap or touch; equality/one-of rules merge with each
other; an interval never merges with an equality/one-of rule. -/
def Rule.can_merge_with : Rule → Rule → Bool
  | .interval l1 u1, .interval l2 u2 => obLE l1 u2 && obLE l2 u1
  | .interval _ _, _ => false
  | _, .interval _ _ => false
  | _, _ => true

/-- Modelled from the spec: `Rule.merge_with` (§3, pinned by
`tests/test_data.py`): overlapping/touching intervals produce the convex
hull interval (min lower, max upper, open bound propagating), disjoint
intervals and cross-variant combinations raise `IncompatibleRuleError`,
and equality/one-of rules produce the `OneOfRule` of the union of their
values. -/
def Rule.merge_with : Rule → Rule → Except MergeErr Rule
  | .interval l1 u1, .interval l2 u2 =>
      if obLE l1 u2 && obLE l2 u1 then
        .ok (.interval (omin l1 l2) (omax u1 u2))
      else .error .incompatibleRule
  | .equality v, .equality w => .ok (.oneOf {v, w})
  | .equality v, .oneOf s => .ok (.oneOf (insert v s))
  | .oneOf s, .equality w => .ok (.oneOf (insert w s))
  | .oneOf s, .oneOf t => .ok (.oneOf (s ∪ t))
  | _, _ => .error .incompatibleRule

/-- The claim-side notion of disjointness for C1: the range ending at
upper bound `u` lies strictly below the range starting at lower bound
`l` (an open bound never separates). -/
def ivSeparated : Option ℚ → Option ℚ → Bool
  | some b, some a => decide (b < a)
  | _, _ => false

/-- Embeds `region.py` `Density`: the flattened grid coordinate array and
the two value channels stored by `Density.__init__`.  `values` holds
`values / values.sum()` and `values_scaled` holds `values / values.max()`
of the raw input vector. -/
structure Density where
  grid : List ℚ
  values : List ℚ
  values_scaled : List ℚ
  deriving DecidableEq

/-- `np.max` of a nonempty vector; `numpy` raises on an empty array, here
the empty case is mapped to `0` (no embedded claim touches it). -/
def listMax : List ℚ → ℚ
  | [] => 0
  | [x] => x
  | x :: y :: xs => max x (listMax (y :: xs))

/-- Embeds `Density.__init__(grid, values)` from `region.py`
(lines 10-13): stores the grid, `values / values.sum()` and
`values / values.max()`.  The divisions are unguarded, exactly as in the
source; rational division by zero yields `0` where numpy would produce
`NaN`. -/
def Density.init (grid values : List ℚ) : Density :=
  ⟨grid, values.map (· / values.sum), values.map (· / listMax values)⟩

/-- One comparison of `np.allclose` with the default tolerances
`rtol = 1e-5`, `atol = 1e-8`: `|a - b| ≤ atol + rtol * |b|`. -/
def closeQ (a b : ℚ) : Bool :=
  decide (|a - b| ≤ 1 / 100000000 + 1 / 100000 * |b|)

/-- `np.allclose` on two same-length vectors (elementwise `closeQ`);
length mismatch is modelled as not close. -/
def allclose (a b : List ℚ) : Bool :=
  decide (a.length = b.length) && (a.zip b).all (fun p => closeQ p.1 p.2)

/-- `np.sum(np.vstack(vs), axis=0)`: elementwise sum of equal-length
rows. -/
def vsum : List (List ℚ) → List ℚ
  | [] => []
  | v :: vs => vs.foldl (fun acc w => List.zipWith (· + ·) acc w) v

/-- Embeds `CompositeDensity.__init__` from `region.py` (lines 74-83):
`densities[0]` (`indexError` when empty), `np.vstack` of member `values`
(`valueError` when row lengths differ), the elementwise sum renormalized
by the base constructor `Density.init`, and finally the
`np.allclose` grid check that raises (`shapeMismatch`) when some member
grid is not close to the first one. -/
def compositeDensity : List Density → Except MergeErr Density
  | [] => .error .indexError
  | d0 :: ds =>
      if (d0 :: ds).all (fun d => decide (d.values.length = d0.values.length)) then
        let c := Density.init d0.grid (vsum ((d0 :: ds).map (·.values)))
        if (d0 :: ds).all (fun d => allclose d.grid d0.grid) then .ok c
        else .error .shapeMismatch
      else .error .valueError

/-- Modelled from the spec: the `Region` objects manipulated by
`annotate.py` carry a `feature` (Variable, modelled by its `Rule`), a
`density`, and the polygon thresholded from the density
(`Region.from_density` thresholds `values_scaled` at a contour `level`);
this richer Region class is absent from `src/region.py` (whose `Region`
stores only density and polygon).  Polygons are finite sets of unit grid
cells and each Region is tagged with the allocation counter value `id`
current at its construction, so that freshly constructed objects can be
told apart from pre-existing ones. -/
structure Region where
  id : ℕ
  feature : Rule
  density : Density
  poly : Finset ℕ
  deriving DecidableEq

/-- The default contour level `0.25` used by `find_regions`. -/
def contour_level : ℚ := 1 / 4

/-- Modelled from the spec: §4.2 region extraction thresholds the scaled
density field at `level`; cell `i` belongs to the polygon iff its scaled
value is at least the level (the filled-contour machinery of
`contourpy`/`shapely` is modelled cell-wise). -/
def thresholdPoly (d : Density) : Finset ℕ :=
  (Finset.range d.values_scaled.length).filter
    (fun i => contour_level ≤ d.values_scaled.getD i 0)

/-- Constructs the Region object `Region(feature, density)` built in
`stage_1_merge_regions`, tagging it with the current allocation
counter. -/
def Region.make (cnt : ℕ) (feature : Rule) (density : Density) : Region :=
  ⟨cnt, feature, density, thresholdPoly density⟩

/-- `area(A∩B)/area(A)` and `area(A∩B)/area(B)`, maximum of the two:
the overlap score computed inline in `stage_1_merge_candidates`
(lines 147-149 of `annotate.py`).  Rational division by zero yields `0`
for an empty polygon, where the Python float division would raise
`ZeroDivisionError`; no claim exercises empty polygons. -/
def overlapScore (r1 r2 : Region) : ℚ :=
  max (((r1.poly ∩ r2.poly).card : ℚ) / (r1.poly.card : ℚ))
    (((r2.poly ∩ r1.poly).card : ℚ) / (r2.poly.card : ℚ))

/-- Python dict lookup `d[k]` on an insertion-ordered association list. -/
def dlookup (k : Rule) : List (Rule × Region) → Option Region
  | [] => none
  | kv :: rest => if kv.1 = k then some kv.2 else dlookup k rest

/-- Python dict assignment `d[k] = v`: replaces in place when the key
exists, appends at the end otherwise. -/
def dinsert (k : Rule) (v : Region) : List (Rule × Region) → List (Rule × Region)
  | [] => [(k, v)]
  | kv :: rest => if kv.1 = k then (k, v) :: rest else kv :: dinsert k v rest

/-- `del d[k] for k in ks`: drops every entry whose key lies in `ks`
(deletion order inside the Python set is immaterial for the result). -/
def dremoveAll (ks : Finset Rule) (d : List (Rule × Region)) : List (Rule × Region) :=
  d.filter (fun kv => decide (kv.1 ∉ ks))

/-- Keys of an association list, in order. -/
def mkeys (d : List (Rule × Region)) : List Rule := d.map (·.1)

/-- The `i < j` double loop of `stage_1_merge_candidates`: for every
later entry that is rule-mergeable with the current one, record the key
pair together with its overlap score, in enumeration order. -/
def candidatePairs : List (Rule × Region) → List (Rule × Rule × ℚ)
  | [] => []
  | kr :: rest =>
      rest.filterMap (fun kr2 =>
        if kr.2.feature.can_merge_with kr2.2.feature then
          some (kr.1, kr2.1, overlapScore kr.2 kr2.2)
        else none)
      ++ candidatePairs rest

/-- Embeds `stage_1_merge_candidates` (`annotate.py` lines 131-162): all
mergeable pairs with their overlap scores, filtered to those scoring at
or above `overlap_threshold`; no sorting and no per-feature
deduplication is performed. -/
def stage_1_merge_candidates (regions : List (Rule × Region))
    (overlap_threshold : ℚ) : List (Rule × Rule × ℚ) :=
  (candidatePairs regions).filter (fun t => decide (overlap_threshold ≤ t.2.2))

/-- The body of one merge in `_merge_regions`:
`Region(r1.feature.merge_with(r2.feature), r1.density + r2.density)`,
where `+` on densities builds the `CompositeDensity` of the two members
(the "summed Density of the two inputs" of the spec). -/
def mergedRegion (cnt : ℕ) (r1 r2 : Region) : Except MergeErr Region :=
  match r1.feature.merge_with r2.feature with
  | .error e => .error e
  | .ok mf =>
    match compositeDensity [r1.density, r2.density] with
    | .error e => .error e
    | .ok dsum => .ok (Region.make cnt mf dsum)

/-- The loop of `_merge_regions` (`annotate.py` lines 189-203): for each
pair `(f1, f2)` look the two regions up in the evolving dict (a missing
key is a Python `KeyError`), build the merged region, store it under its
merged feature, and remember `f1`, `f2` for removal; all removals happen
after the loop. -/
def mergeRoundGo : List (Rule × Rule) → List (Rule × Region) → Finset Rule → ℕ →
    Except MergeErr (List (Rule × Region) × ℕ)
  | [], d, toRemove, cnt => .ok (dremoveAll toRemove d, cnt)
  | (f1, f2) :: rest, d, toRemove, cnt =>
    match dlookup f1 d with
    | none => .error .keyError
    | some r1 =>
      match dlookup f2 d with
      | none => .error .keyError
      | some r2 =>
        match mergedRegion cnt r1 r2 with
        | .error e => .error e
        | .ok nr =>
            mergeRoundGo rest (dinsert nr.feature nr d)
              (insert f1 (insert f2 toRemove)) (cnt + 1)

/-- `_merge_regions(merge_features)` as invoked with a fresh
`features_to_remove` set. -/
def _merge_regions (pairs : List (Rule × Rule)) (d : List (Rule × Region))
    (cnt : ℕ) : Except MergeErr (List (Rule × Region) × ℕ) :=
  mergeRoundGo pairs d ∅ cnt

/-- The `while` fixpoint loop of `stage_1_merge_regions` (lines 211-217):
recompute candidates, stop as soon as none remain, otherwise run one
merge round on the key pairs; explicit fuel bounds the iteration. -/
def stage1Loop (overlap_threshold : ℚ) :
    ℕ → List (Rule × Region) → ℕ → Except MergeErr (List (Rule × Region) × ℕ)
  | 0, _, _ => .error .outOfFuel
  | fuel + 1, d, cnt =>
      let cands := stage_1_merge_candidates d overlap_threshold
      if cands.isEmpty then .ok (d, cnt)
      else
        match _merge_regions (cands.map (fun t => (t.1, t.2.1))) d cnt with
        | .error e => .error e
        | .ok r => stage1Loop overlap_threshold fuel r.1 r.2

/-- Embeds `stage_1_merge_regions` (`annotate.py` lines 165-219).  The
Python function first rebinds `regions` to `dict(regions)`, so the
mapping of the caller is never touched; value semantics renders that copy
implicit here.  With explicit `merge_features` a single `_merge_regions`
pass runs and `overlap_threshold` is never read; otherwise the fixpoint
loop runs.  `cnt` is the allocation counter and `fuel` bounds the
loop. -/
def stage_1_merge_regions (regions : List (Rule × Region))
    (merge_features : Option (List (Rule × Rule))) (overlap_threshold : ℚ)
    (cnt fuel : ℕ) : Except MergeErr (List (Rule × Region) × ℕ) :=
  match merge_features with
  | some pairs => _merge_regions pairs regions cnt
  | none => stage1Loop overlap_threshold fuel regions cnt

/-- Modelled from the spec: `intersection_percentage` from the missing
`metrics.py` — the pairwise overlap fraction of two regions (§4.6),
taken as the larger of the two directional overlap fractions.  As with
`overlapScore`, division by an empty-polygon area is total here (`0`)
where Python would raise `ZeroDivisionError`. -/
def intersection_percentage (r1 r2 : Region) : ℚ :=
  max (((r1.poly ∩ r2.poly).card : ℚ) / (r1.poly.card : ℚ))
    (((r2.poly ∩ r1.poly).card : ℚ) / (r2.poly.card : ℚ))

/-- Place a node into the first set it is independent from (no edge to
any member), opening a new singleton set when none fits. -/
def place {α : Type} (E : α → α → Bool) (x : α) : List (List α) → List (List α)
  | [] => [[x]]
  | s :: rest => if s.all (fun y => !E x y) then (x :: s) :: rest else s :: place E x rest

/-- Modelled from the spec: `independent_sets` from the missing
`graph.py` (§4.6/§4.7) — partition the nodes into independent sets of
the edge relation `E` by greedy first-fit placement; not necessarily
optimal, but every node lands in exactly one set and no set contains an
edge. -/
def independent_sets {α : Type} (E : α → α → Bool) (nodes : List α) : List (List α) :=
  nodes.foldl (fun acc x => place E x acc) []

/-- The edge relation of `optimize_layout`: two regions are connected
iff their overlap fraction meets or exceeds `max_overlap`
(`similarities_to_graph(overlap, threshold=max_overlap)`). -/
def layoutEdge (max_overlap : ℚ) (p q : Rule × Region) : Bool :=
  decide (max_overlap ≤ intersection_percentage p.2 q.2)

/-- The independent sets of region entries computed by
`optimize_layout` before projecting to keys. -/
def layoutSets (regions : List (Rule × Region)) (max_overlap : ℚ) :
    List (List (Rule × Region)) :=
  independent_sets (layoutEdge max_overlap) regions

/-- Embeds `optimize_layout` (`annotate.py` lines 311-323): build the
overlap graph at threshold `max_overlap` and return the independent
sets, as lists of region keys. -/
def optimize_layout (regions : List (Rule × Region)) (max_overlap : ℚ) :
    List (List Rule) :=
  (layoutSets regions max_overlap).map (fun s => s.map (·.1))

/-- Specification-side straight-line computation of the merged regions a
round produces: every pair is resolved against the initial
mapping `d0`, one merged region per pair, ids counting up from `cnt`.
Used to characterize `_merge_regions`. -/
def mergedOf (d0 : List (Rule × Region)) : ℕ → List (Rule × Rule) →
    Except MergeErr (List (Rule × Region))
  | _, [] => .ok []
  | cnt, p :: rest =>
    match dlookup p.1 d0 with
    | none => .error .keyError
    | some r1 =>
      match dlookup p.2 d0 with
      | none => .error .keyError
      | some r2 =>
        match mergedRegion cnt r1 r2 with
        | .error e => .error e
        | .ok nr =>
          match mergedOf d0 (cnt + 1) rest with
          | .error e => .error e
          | .ok tail => .ok ((nr.feature, nr) :: tail)

/-- All features participating in a list of merge pairs (the final
contents of `features_to_remove`). -/
def participants : List (Rule × Rule) → Finset Rule
  | [] => ∅
  | p :: rest => insert p.1 (insert p.2 (participants rest))

instance {ε α : Type} [DecidableEq ε] [DecidableEq α] :
    DecidableEq (Except ε α) := fun x y =>
  match x, y with
  | .ok a, .ok b =>
      if h : a = b then .isTrue (by rw [h])
      else .isFalse (fun hh => h (Except.ok.inj hh))
  | .error e, .error f =>
      if h : e = f then .isTrue (by rw [h])
      else .isFalse (fun hh => h (Except.error.inj hh))
  | .ok _, .error _ => .isFalse (fun hh => Except.noConfusion hh)
  | .error _, .ok _ => .isFalse (fun hh => Except.noConfusion hh)

/-! Concrete inputs used by witnesses and counterexamples. -/

/-- A density whose grid is the single coordinate `0` with unit mass. -/
def dEx : Density := ⟨[0], [1], [1]⟩

/-- A region over `dEx` whose polygon is the single grid cell `0`. -/
def rEx (i : ℕ) (f : Rule) : Region := ⟨i, f, dEx, {0}⟩

/-- The interval feature `[0, 10]`. -/
def fEx1 : Rule := .interval (some 0) (some 10)

/-- The interval feature `[1, 11]`. -/
def fEx2 : Rule := .interval (some 1) (some 11)

/-- The interval feature `[2, 12]`. -/
def fEx3 : Rule := .interval (some 2) (some 12)

/-- The interval feature `[3, 13]`. -/
def fEx4 : Rule := .interval (some 3) (some 13)

/-- Three regions with pairwise mergeable interval features and
identical polygons (every pairwise overlap score is `1`). -/
def ex3 : List (Rule × Region) := [(fEx1, rEx 0 fEx1), (fEx2, rEx 1 fEx2), (fEx3, rEx 2 fEx3)]

/-- Four regions with pairwise mergeable interval features and identical
polygons: all six pairs become merge candidates in one round. -/
def exK4 : List (Rule × Region) :=
  [(fEx1, rEx 0 fEx1), (fEx2, rEx 1 fEx2), (fEx3, rEx 2 fEx3), (fEx4, rEx 3 fEx4)]

/-- Two regions with mergeable interval features and identical polygons:
the single candidate pair merges them into one region. -/
def ex2 : List (Rule × Region) := [(fEx1, rEx 0 fEx1), (fEx2, rEx 1 fEx2)]

/-- The three candidate key pairs of `ex3` at threshold `3/4`. -/
def pairsEx3 : List (Rule × Rule) := [(fEx1, fEx2), (fEx1, fEx3), (fEx2, fEx3)]

/-- The merged regions one round produces on `ex3` starting from
allocation counter `100`. -/
def msEx3 : List (Rule × Region) :=
  [(.interval (some 0) (some 11), ⟨100, .interval (some 0) (some 11), dEx, {0}⟩),
   (.interval (some 0) (some 12), ⟨101, .interval (some 0) (some 12), dEx, {0}⟩),
   (.interval (some 1) (some 12), ⟨102, .interval (some 1) (some 12), dEx, {0}⟩)]

/-! Helper lemmas about interval bounds. -/

lemma obLE_eq_not_ivSeparated (l u : Option ℚ) : obLE l u = !ivSeparated u l := by
  cases l <;> cases u <;> simp [obLE, ivSeparated, ← decide_not, not_lt]

/-- C1: for every pair of IntervalRules, `merge_with` succeeds iff the two
ranges overlap or are adjacent (iff neither range lies strictly below the
other, `ivSeparated`); on success the resulting bounds are the minimum of
the lower bounds and the maximum of the upper bounds with an open bound
on either side propagating (`omin` / `omax`); for disjoint intervals it
raises `IncompatibleRuleError`. -/
theorem C1_interval_merge (l1 u1 l2 u2 : Option ℚ) :
    ((Rule.interval l1 u1).merge_with (Rule.interval l2 u2) =
        Except.ok (Rule.interval (omin l1 l2) (omax u1 u2)) ↔
      ivSeparated u1 l2 = false ∧ ivSeparated u2 l1 = false)
    ∧ (ivSeparated u1 l2 = true ∨ ivSeparated u2 l1 = true →
        (Rule.interval l1 u1).merge_with (Rule.interval l2 u2) =
          Except.error MergeErr.incompatibleRule) := by
  have h1 : obLE l1 u2 = !ivSeparated u2 l1 := obLE_eq_not_ivSeparated l1 u2
  have h2 : obLE l2 u1 = !ivSeparated u1 l2 := obLE_eq_not_ivSeparated l2 u1
  constructor
  · constructor
    · intro h
      by_cases hs : (obLE l1 u2 && obLE l2 u1) = true
      · rw [h1, h2] at hs
        simp only [Bool.and_eq_true, Bool.not_eq_true'] at hs
        exact ⟨hs.2, hs.1⟩
      · rw [Rule.merge_with, if_neg hs] at h
        exact absurd h (by simp)
    · rintro ⟨hA, hB⟩
      have hs : (obLE l1 u2 && obLE l2 u1) = true := by
        rw [h1, h2, hA, hB]; rfl
      rw [Rule.merge_with, if_pos hs]
  · intro h
    have hs : (obLE l1 u2 && obLE l2 u1) = false := by
      rcases h with h | h
      · rw [h1, h2, h]; simp
      · rw [h1, h2, h]; simp
    rw [Rule.merge_with, if_neg (by rw [hs]; simp)]

/-- Witness for C1 at the concrete scenario of the spec: `(0, 5)` and
`(5, 10)` (adjacent) merge to `(0, 10)`, while `(0, 5)` and `(10, 15)`
(disjoint) fail with `IncompatibleRuleError`. -/
theorem C1_witness :
    (Rule.interval (some 0) (some 5)).merge_with (Rule.interval (some 5) (some 10)) =
      Except.ok (Rule.interval (some 0) (some 10))
    ∧ (Rule.interval (some 0) (some 5)).merge_with (Rule.interval (some 10) (some 15)) =
      Except.error MergeErr.incompatibleRule := by
  constructor
  · have h := (C1_interval_merge (some 0) (some 5) (some 5) (some 10)).1.mpr
      (by constructor <;> decide)
    rw [h]; decide
  · exact (C1_interval_merge (some 0) (some 5) (some 10) (some 15)).2 (Or.inl (by decide))

/-! Helper lemmas about the density normalizations. -/

lemma sum_map_div (l : List ℚ) (c : ℚ) : (l.map (· / c)).sum = l.sum / c := by
  induction l with
  | nil => simp
  | cons x t ih => simp [ih, add_div]

lemma listMax_cons_cons (x y : ℚ) (t : List ℚ) :
    listMax (x :: y :: t) = max x (listMax (y :: t)) := rfl

lemma listMax_map_div : ∀ (l : List ℚ) (c : ℚ), 0 < c →
    listMax (l.map (· / c)) = listMax l / c
  | [], c, _ => by simp [listMax, zero_div]
  | [x], c, _ => by simp [listMax]
  | x :: y :: t, c, hc => by
      have ih := listMax_map_div (y :: t) c hc
      simp only [List.map_cons] at ih ⊢
      rw [listMax_cons_cons, listMax_cons_cons, ih]
      rcases le_total x (listMax (y :: t)) with h | h
      · rw [max_eq_right h, max_eq_right ((div_le_div_iff_of_pos_right hc).mpr h)]
      · rw [max_eq_left h, max_eq_left ((div_le_div_iff_of_pos_right hc).mpr h)]

/-- C5 (amended): for every Density constructed from a values vector with
nonzero total and positive maximum, the stored `values` sum to `1` and
the stored `values_scaled` have maximum exactly `1`.  (The unamended
claim, quantifying over every input vector, fails on the all-zero
vector, see `C5_counterexample`.) -/
theorem C5_density_normalization (grid values : List ℚ)
    (hsum : values.sum ≠ 0) (hmax : 0 < listMax values) :
    (Density.init grid values).values.sum = 1
    ∧ listMax (Density.init grid values).values_scaled = 1 := by
  constructor
  · show (values.map (· / values.sum)).sum = 1
    rw [sum_map_div, div_self hsum]
  · show listMax (values.map (· / listMax values)) = 1
    rw [listMax_map_div values _ hmax, div_self (ne_of_gt hmax)]

/-- Counterexample for C5 as frozen: the Density constructed from the
all-zero values vector has `values` summing to `0`, not `1`, and
`values_scaled` with maximum `0`, not `1` (numpy produces NaN there; the
rational embedding produces `0`, and the normalization invariant fails
either way). -/
theorem C5_counterexample :
    (Density.init [0] [0, 0]).values.sum ≠ 1
    ∧ listMax (Density.init [0] [0, 0]).values_scaled ≠ 1 := by
  norm_num [Density.init, listMax]

/-- Witness for C5 at a concrete positive input. -/
theorem C5_witness :
    (Density.init [0] [1, 3]).values.sum = 1
    ∧ listMax (Density.init [0] [1, 3]).values_scaled = 1 :=
  C5_density_normalization [0] [1, 3] (by norm_num) (by norm_num [listMax])

/-- C9: `Density.__init__` divides by `values.sum()` and `values.max()`
without any guard: for vectors of positive total mass and positive
maximum the results are well-defined (normalized), but the all-zero
vector is not rejected — construction succeeds and returns junk fields
violating both normalization invariants (NaN in numpy, zeros in this
rational embedding). -/
theorem C9_unguarded_division :
    (∀ grid values : List ℚ, 0 < values.sum →
        (Density.init grid values).values.sum = 1)
    ∧ (∀ grid values : List ℚ, 0 < listMax values →
        listMax (Density.init grid values).values_scaled = 1)
    ∧ (Density.init [0] [0, 0] = ⟨[0], [0, 0], [0, 0]⟩
        ∧ (Density.init [0] [0, 0]).values.sum ≠ 1
        ∧ listMax (Density.init [0] [0, 0]).values_scaled ≠ 1) := by
  refine ⟨?_, ?_, by norm_num [Density.init, listMax]⟩
  · intro grid values h
    show (values.map (· / values.sum)).sum = 1
    rw [sum_map_div, div_self (ne_of_gt h)]
  · intro grid values h
    show listMax (values.map (· / listMax values)) = 1
    rw [listMax_map_div values _ h, div_self (ne_of_gt h)]

/-- Witness for C9 at a concrete positive input. -/
theorem C9_witness :
    (Density.init [0] [2, 2]).values.sum = 1
    ∧ listMax (Density.init [0] [2, 2]).values_scaled = 1 :=
  ⟨C9_unguarded_division.1 [0] [2, 2] (by norm_num),
   C9_unguarded_division.2.1 [0] [2, 2] (by norm_num [listMax])⟩

/-! Helper lemmas about the association-list dictionary operations. -/

lemma mkeys_cons (kv : Rule × Region) (d : List (Rule × Region)) :
    mkeys (kv :: d) = kv.1 :: mkeys d := rfl

lemma mkeys_append (a b : List (Rule × Region)) :
    mkeys (a ++ b) = mkeys a ++ mkeys b := by
  simp [mkeys]

lemma dlookup_mem_keys {k : Rule} {v : Region} {d : List (Rule × Region)}
    (h : dlookup k d = some v) : k ∈ mkeys d := by
  induction d with
  | nil => simp [dlookup] at h
  | cons kv rest ih =>
      rw [dlookup] at h
      by_cases hk : kv.1 = k
      · rw [mkeys_cons, hk]
        exact List.mem_cons_self _ _
      · rw [if_neg hk] at h
        exact List.mem_cons_of_mem _ (ih h)

lemma dlookup_append_left {k : Rule} {v : Region} {d : List (Rule × Region)}
    (h : dlookup k d = some v) (l : List (Rule × Region)) :
    dlookup k (d ++ l) = some v := by
  induction d with
  | nil => simp [dlookup] at h
  | cons kv rest ih =>
      rw [List.cons_append, dlookup]
      rw [dlookup] at h
      by_cases hk : kv.1 = k
      · rwa [if_pos hk] at h ⊢
      · rw [if_neg hk] at h ⊢
        exact ih h

lemma dinsert_of_not_mem {k : Rule} {v : Region} {l : List (Rule × Region)}
    (h : k ∉ mkeys l) : dinsert k v l = l ++ [(k, v)] := by
  induction l with
  | nil => rfl
  | cons kv rest ih =>
      rw [mkeys_cons, List.mem_cons] at h
      push_neg at h
      rw [dinsert, if_neg (fun he => h.1 he.symm), List.cons_append, ih h.2]

lemma mem_dinsert {kv : Rule × Region} {k : Rule} {v : Region}
    {l : List (Rule × Region)} (h : kv ∈ dinsert k v l) :
    kv = (k, v) ∨ kv ∈ l := by
  induction l with
  | nil => simpa [dinsert] using h
  | cons kv0 rest ih =>
      rw [dinsert] at h
      by_cases hk : kv0.1 = k
      · rw [if_pos hk] at h
        rcases List.mem_cons.mp h with rfl | h2
        · exact Or.inl rfl
        · exact Or.inr (List.mem_cons_of_mem _ h2)
      · rw [if_neg hk] at h
        rcases List.mem_cons.mp h with rfl | h2
        · exact Or.inr (List.mem_cons_self _ _)
        · rcases ih h2 with h3 | h3
          · exact Or.inl h3
          · exact Or.inr (List.mem_cons_of_mem _ h3)

lemma dremoveAll_append (S : Finset Rule) (a b : List (Rule × Region)) :
    dremoveAll S (a ++ b) = dremoveAll S a ++ dremoveAll S b := by
  simp [dremoveAll, List.filter_append]

lemma dremoveAll_eq_self {S : Finset Rule} {l : List (Rule × Region)}
    (h : ∀ kv ∈ l, kv.1 ∉ S) : dremoveAll S l = l := by
  rw [dremoveAll, List.filter_eq_self]
  intro kv hkv
  simpa using h kv hkv

lemma mem_dremoveAll {S : Finset Rule} {l : List (Rule × Region)}
    {kv : Rule × Region} (h : kv ∈ dremoveAll S l) : kv ∈ l :=
  List.mem_of_mem_filter h

/-! Helper lemmas about the straight-line merged-region computation. -/

lemma mergedOf_length {d0 : List (Rule × Region)} :
    ∀ {cnt : ℕ} {pairs : List (Rule × Rule)} {ms : List (Rule × Region)},
      mergedOf d0 cnt pairs = .ok ms → ms.length = pairs.length := by
  intro cnt pairs
  induction pairs generalizing cnt with
  | nil =>
      intro ms h
      rw [mergedOf] at h
      injection h with h2
      rw [← h2]
      rfl
  | cons p rest ih =>
      intro ms h
      rw [mergedOf] at h
      split at h
      · exact absurd h (by simp)
      split at h
      · exact absurd h (by simp)
      split at h
      · exact absurd h (by simp)
      split at h
      · exact absurd h (by simp)
      rename_i tail h4
      injection h with h2
      rw [← h2, List.length_cons, List.length_cons, ih h4]

/-- Characterization of one `_merge_regions` round: provided the
straight-line computation `mergedOf` succeeds and its merged keys are
fresh (none collides with an input key) and mutually distinct, the
working dict evolves by pure appends, every pair is resolved against the
initial mapping, and the final result is the input minus all
participating features followed by one merged region per pair. -/
lemma mergeRoundGo_spec (d0 : List (Rule × Region)) :
    ∀ (pairs : List (Rule × Rule)) (acc : List (Rule × Region))
      (tR : Finset Rule) (cnt : ℕ) (ms : List (Rule × Region)),
      mergedOf d0 cnt pairs = .ok ms →
      (∀ k ∈ mkeys acc, k ∉ mkeys d0) →
      (∀ k ∈ mkeys ms, k ∉ mkeys d0) →
      (∀ k ∈ mkeys ms, k ∉ mkeys acc) →
      (mkeys ms).Nodup →
      (∀ k ∈ tR, k ∈ mkeys d0) →
      mergeRoundGo pairs (d0 ++ acc) tR cnt =
        .ok (dremoveAll (tR ∪ participants pairs) d0 ++ acc ++ ms,
          cnt + pairs.length) := by
  intro pairs
  induction pairs with
  | nil =>
      intro acc tR cnt ms hok hacc hmsd hmsacc hnd htR
      rw [mergedOf] at hok
      injection hok with h2
      rw [← h2]
      rw [mergeRoundGo, participants, Finset.union_empty, dremoveAll_append,
        dremoveAll_eq_self (fun kv hkv hin =>
          hacc kv.1 (List.mem_map_of_mem _ hkv) (htR _ hin))]
      simp
  | cons p rest ih =>
      intro acc tR cnt ms hok hacc hmsd hmsacc hnd htR
      obtain ⟨f1, f2⟩ := p
      rw [mergedOf] at hok
      dsimp only at hok
      split at hok
      · exact absurd hok (by simp)
      rename_i r1 h1
      split at hok
      · exact absurd hok (by simp)
      rename_i r2 h2
      split at hok
      · exact absurd hok (by simp)
      rename_i nr h3
      split at hok
      · exact absurd hok (by simp)
      rename_i tail h4
      injection hok with h5
      subst h5
      have hnrd0 : nr.feature ∉ mkeys d0 := hmsd nr.feature (List.mem_cons_self _ _)
      have hnracc : nr.feature ∉ mkeys acc := hmsacc nr.feature (List.mem_cons_self _ _)
      have hnr : nr.feature ∉ mkeys (d0 ++ acc) := by
        rw [mkeys_append, List.mem_append]
        rintro (h | h)
        · exact hnrd0 h
        · exact hnracc h
      rw [mergeRoundGo, dlookup_append_left h1, dlookup_append_left h2]
      dsimp only
      rw [h3]
      dsimp only
      rw [dinsert_of_not_mem hnr, List.append_assoc]
      have hkey := ih (acc ++ [(nr.feature, nr)]) (insert f1 (insert f2 tR))
        (cnt + 1) tail h4
        (by
          intro k hk
          rw [mkeys_append, List.mem_append] at hk
          rcases hk with hk | hk
          · exact hacc k hk
          · rw [show mkeys [(nr.feature, nr)] = [nr.feature] from rfl,
              List.mem_singleton] at hk
            subst hk
            exact hnrd0)
        (fun k hk => hmsd k (List.mem_cons_of_mem _ hk))
        (by
          intro k hk
          rw [mkeys_append, List.mem_append]
          rintro (h | h)
          · exact hmsacc k (List.mem_cons_of_mem _ hk) h
          · rw [show mkeys [(nr.feature, nr)] = [nr.feature] from rfl,
              List.mem_singleton] at h
            subst h
            exact (List.nodup_cons.mp hnd).1 hk)
        (List.nodup_cons.mp hnd).2
        (by
          intro k hk
          rcases Finset.mem_insert.mp hk with rfl | hk
          · exact dlookup_mem_keys h1
          rcases Finset.mem_insert.mp hk with rfl | hk
          · exact dlookup_mem_keys h2
          · exact htR k hk)
      rw [hkey]
      have hU : insert f1 (insert f2 tR) ∪ participants rest =
          tR ∪ participants ((f1, f2) :: rest) := by
        rw [participants]
        ext x
        simp only [Finset.mem_union, Finset.mem_insert]
        tauto
      rw [hU]
      refine congrArg Except.ok (Prod.ext ?_ ?_)
      · simp [List.append_assoc]
      · simp only [List.length_cons]
        omega

/-- Unconditional bookkeeping of one `_merge_regions` round: on success
the allocation counter advances by exactly one freshly constructed
merged region per supplied pair — the loop never skips a pair, even when
a merged feature collides with an existing key and overwrites it — and
the final deletion pass removes every key of the accumulated removal set
together with every feature participating in some pair. -/
lemma mergeRoundGo_removes :
    ∀ (pairs : List (Rule × Rule)) (d : List (Rule × Region)) (tR : Finset Rule)
      (cnt : ℕ) (out : List (Rule × Region)) (cnt2 : ℕ),
      mergeRoundGo pairs d tR cnt = .ok (out, cnt2) →
      cnt2 = cnt + pairs.length
      ∧ ∀ kv ∈ out, kv.1 ∉ tR ∧ kv.1 ∉ participants pairs := by
  intro pairs
  induction pairs with
  | nil =>
      intro d tR cnt out cnt2 h
      rw [mergeRoundGo] at h
      injection h with h2
      obtain ⟨h3, h4⟩ := Prod.mk.inj h2
      refine ⟨by simp [← h4], ?_⟩
      intro kv hkv
      rw [← h3, dremoveAll] at hkv
      refine ⟨of_decide_eq_true (List.mem_filter.mp hkv).2, ?_⟩
      rw [participants]
      exact Finset.not_mem_empty _
  | cons p rest ih =>
      intro d tR cnt out cnt2 h
      obtain ⟨f1, f2⟩ := p
      rw [mergeRoundGo] at h
      split at h
      · exact absurd h (by simp)
      split at h
      · exact absurd h (by simp)
      split at h
      · exact absurd h (by simp)
      obtain ⟨hcnt, hmem⟩ := ih _ _ _ _ _ h
      refine ⟨by rw [hcnt, List.length_cons]; omega, ?_⟩
      intro kv hkv
      obtain ⟨htR, hparts⟩ := hmem kv hkv
      rw [Finset.mem_insert, Finset.mem_insert] at htR
      push_neg at htR
      refine ⟨htR.2.2, ?_⟩
      rw [participants, Finset.mem_insert, Finset.mem_insert]
      push_neg
      exact ⟨htR.1, htR.2.1, hparts⟩

/-- C2 (amended): no accepted merge candidate is ever skipped — dropping
the claimed highest-overlap-first ordering and the claimed at-most-one
merge per variable (refuted by `C2_counterexample`): whenever a round of
`_merge_regions` over the accepted pairs returns, it has constructed
exactly one fresh merged region per supplied pair (the allocation
counter advances by the number of pairs, key collisions included) and
has removed every participating feature from the resulting mapping. -/
theorem C2_no_candidate_skipped (pairs : List (Rule × Rule))
    (d : List (Rule × Region)) (cnt : ℕ) (out : List (Rule × Region)) (cnt2 : ℕ)
    (h : _merge_regions pairs d cnt = .ok (out, cnt2)) :
    cnt2 = cnt + pairs.length ∧ ∀ kv ∈ out, kv.1 ∉ participants pairs := by
  obtain ⟨hcnt, hmem⟩ := mergeRoundGo_removes pairs d ∅ cnt out cnt2 h
  exact ⟨hcnt, fun kv hkv => (hmem kv hkv).2⟩

/-- Counterexample for C2 as frozen: on three identical-polygon regions
with pairwise-mergeable interval features `[0,10]`, `[1,11]`, `[2,12]`,
the candidate list contains all three pairs — the second and third share
a feature with the first accepted pair, yet none is skipped — and the
round produces all three merged regions, so the variable `[0,10]`
participates in two accepted merges in a single round. -/
theorem C2_counterexample :
    (stage_1_merge_candidates ex3 (3/4)).map (fun t => (t.1, t.2.1)) =
      [(fEx1, fEx2), (fEx1, fEx3), (fEx2, fEx3)]
    ∧ _merge_regions [(fEx1, fEx2), (fEx1, fEx3), (fEx2, fEx3)] ex3 100 =
        .ok (msEx3, 103) := by
  constructor
  · norm_num [stage_1_merge_candidates, candidatePairs, ex3, rEx, fEx1, fEx2, fEx3,
      Rule.can_merge_with, obLE, overlapScore, List.filterMap_cons, List.filter_cons]
  · norm_num [_merge_regions, mergeRoundGo, ex3, msEx3, rEx, fEx1, fEx2, fEx3, dEx,
      dlookup, dinsert, dremoveAll, participants, mergedRegion, Rule.merge_with,
      obLE, omin, omax, compositeDensity, vsum, allclose, closeQ, Density.init,
      listMax, Region.make, thresholdPoly, contour_level, List.filter_cons,
      Finset.filter_insert, Finset.filter_singleton]

/-- Witness for C2 (amended) at the three-region example round: the
counter advances by the three processed pairs and the feature `[0,11]`
surviving in the output is not a participant. -/
theorem C2_witness :
    (103 : ℕ) = 100 + pairsEx3.length
    ∧ Rule.interval (some 0) (some 11) ∉ participants pairsEx3 := by
  have h := C2_no_candidate_skipped pairsEx3 ex3 100 msEx3 103
    (by
      norm_num [_merge_regions, mergeRoundGo, ex3, pairsEx3, msEx3, rEx, fEx1, fEx2,
        fEx3, dEx, dlookup, dinsert, dremoveAll, participants, mergedRegion,
        Rule.merge_with, obLE, omin, omax, compositeDensity, vsum, allclose, closeQ,
        Density.init, listMax, Region.make, thresholdPoly, contour_level,
        List.filter_cons, Finset.filter_insert, Finset.filter_singleton])
  refine ⟨h.1, ?_⟩
  exact h.2
    (Rule.interval (some 0) (some 11),
      ⟨100, Rule.interval (some 0) (some 11), dEx, {0}⟩)
    (by decide)

/-- C3 (amended): when no pair of regions scores at or above
`overlap_threshold` the fixpoint loop of `stage_1_merge_regions`
terminates immediately, returning the input mapping unchanged; a round
with at least one accepted candidate does not necessarily decrease the
number of active regions — each accepted pair removes its two features
and inserts one merged region, possibly colliding with existing keys, so
the count can decrease (here: the one-candidate round on two overlapping
regions yields one region) or increase (here: the six-candidate round on
four regions yields six). -/
theorem C3_fixpoint_and_region_count :
    (∀ (d : List (Rule × Region)) (th : ℚ) (cnt fuel : ℕ),
        stage_1_merge_candidates d th = [] →
        stage_1_merge_regions d none th cnt (fuel + 1) = .ok (d, cnt))
    ∧ (ex2.length = 2
        ∧ Except.map (fun r => (r.1.length, r.2))
            (_merge_regions
              ((stage_1_merge_candidates ex2 (3/4)).map (fun t => (t.1, t.2.1)))
              ex2 0)
          = Except.ok (1, 1))
    ∧ (exK4.length = 4
        ∧ Except.map (fun r => (r.1.length, r.2))
            (_merge_regions
              ((stage_1_merge_candidates exK4 (3/4)).map (fun t => (t.1, t.2.1)))
              exK4 0)
          = Except.ok (6, 6)) := by
  refine ⟨?_, ⟨rfl, ?_⟩, ⟨rfl, ?_⟩⟩
  · intro d th cnt fuel hc
    rw [stage_1_merge_regions, stage1Loop]
    simp [hc]
  · norm_num [stage_1_merge_candidates, candidatePairs, ex2, rEx, fEx1, fEx2,
      Rule.can_merge_with, obLE, overlapScore, List.filterMap_cons,
      List.filter_cons, _merge_regions, mergeRoundGo, dlookup, dinsert, dremoveAll,
      participants, mergedRegion, Rule.merge_with, omin, omax, compositeDensity,
      vsum, allclose, closeQ, Density.init, listMax, Region.make, thresholdPoly,
      contour_level, dEx, Finset.filter_insert, Finset.filter_singleton,
      Except.map]
  · norm_num [stage_1_merge_candidates, candidatePairs, exK4, rEx, fEx1, fEx2, fEx3,
      fEx4, Rule.can_merge_with, obLE, overlapScore, List.filterMap_cons,
      List.filter_cons, _merge_regions, mergeRoundGo, dlookup, dinsert, dremoveAll,
      participants, mergedRegion, Rule.merge_with, omin, omax, compositeDensity,
      vsum, allclose, closeQ, Density.init, listMax, Region.make, thresholdPoly,
      contour_level, dEx, Finset.filter_insert, Finset.filter_singleton,
      Except.map]

/-- Counterexample for C3 as frozen: four identical-polygon regions with
pairwise-mergeable interval features give six accepted candidate pairs,
and the single merge round driven by the candidates that
`stage_1_merge_candidates` computes turns the 4 input regions into 6
output regions — the number of active regions strictly increases within
one round. -/
theorem C3_counterexample :
    exK4.length = 4
    ∧ (stage_1_merge_candidates exK4 (3/4)).length = 6
    ∧ Except.map (fun r => (r.1.length, r.2))
        (_merge_regions
          ((stage_1_merge_candidates exK4 (3/4)).map (fun t => (t.1, t.2.1)))
          exK4 0)
      = Except.ok (6, 6) := by
  refine ⟨rfl, ?_, ?_⟩
  · norm_num [stage_1_merge_candidates, candidatePairs, exK4, rEx, fEx1, fEx2, fEx3,
      fEx4, Rule.can_merge_with, obLE, overlapScore, List.filterMap_cons,
      List.filter_cons]
  · norm_num [stage_1_merge_candidates, candidatePairs, exK4, rEx, fEx1, fEx2, fEx3,
      fEx4, Rule.can_merge_with, obLE, overlapScore, List.filterMap_cons,
      List.filter_cons, _merge_regions, mergeRoundGo, dlookup, dinsert, dremoveAll,
      participants, mergedRegion, Rule.merge_with, omin, omax, compositeDensity,
      vsum, allclose, closeQ, Density.init, listMax, Region.make, thresholdPoly,
      contour_level, dEx, Finset.filter_insert, Finset.filter_singleton,
      Except.map]

/-- Witness for C3 (amended): the fixpoint conjunct applied at a
threshold no pair of the four-region example reaches. -/
theorem C3_witness :
    stage_1_merge_regions exK4 none 2 0 (4 + 1) = .ok (exK4, 0) :=
  C3_fixpoint_and_region_count.1 exK4 2 0 4
    (by
      norm_num [stage_1_merge_candidates, candidatePairs, exK4, rEx, fEx1, fEx2,
        fEx3, fEx4, Rule.can_merge_with, obLE, overlapScore, List.filterMap_cons,
        List.filter_cons])

/-- C10: when explicit `merge_features` are supplied,
`stage_1_merge_regions` ignores `overlap_threshold` entirely — any two
calls differing only in the threshold (and in the loop fuel, which is
likewise never consulted) return identical results — and the computation
is exactly one `_merge_regions` pass over the supplied pairs, with no
fixpoint iteration. -/
theorem C10_threshold_independence (pairs : List (Rule × Rule))
    (d : List (Rule × Region)) (th th2 : ℚ) (cnt fuel fuel2 : ℕ) :
    stage_1_merge_regions d (some pairs) th cnt fuel =
      stage_1_merge_regions d (some pairs) th2 cnt fuel2
    ∧ stage_1_merge_regions d (some pairs) th cnt fuel = _merge_regions pairs d cnt :=
  ⟨rfl, rfl⟩

/-! Helper lemmas about `allclose` and elementwise sums. -/

lemma closeQ_self (x : ℚ) : closeQ x x = true := by
  rw [closeQ, decide_eq_true_eq, sub_self, abs_zero]
  positivity

lemma allclose_self : ∀ a : List ℚ, allclose a a = true
  | [] => rfl
  | x :: t => by
      have ih := allclose_self t
      rw [allclose, Bool.and_eq_true, decide_eq_true_eq, List.all_eq_true] at ih ⊢
      obtain ⟨_, ih2⟩ := ih
      refine ⟨rfl, ?_⟩
      intro p hp
      rw [List.zip_cons_cons] at hp
      rcases List.mem_cons.mp hp with rfl | hp2
      · exact closeQ_self x
      · exact ih2 p hp2

lemma sum_zipWith_add : ∀ (a b : List ℚ), a.length = b.length →
    (List.zipWith (· + ·) a b).sum = a.sum + b.sum
  | [], [], _ => by simp
  | [], _ :: _, h => by simp at h
  | _ :: _, [], h => by simp at h
  | x :: t, y :: u, h => by
      rw [List.length_cons, List.length_cons, Nat.succ_inj] at h
      rw [List.zipWith_cons_cons, List.sum_cons, List.sum_cons, List.sum_cons,
        sum_zipWith_add t u h]
      ring

/-- C4 (amended): `CompositeDensity` construction from members whose
value rows all have the length of the first raises the grid-mismatch
error iff some member grid fails the `np.allclose` comparison against
the first grid (not iff the grids differ — grids that differ within the
`allclose` tolerance are accepted, see `C4_counterexample`); on a
mismatch the construction aborts with the error, so no composite value
is ever returned to the caller. -/
theorem C4_grid_mismatch (d0 : Density) (ds : List Density)
    (hlen : ∀ d ∈ d0 :: ds, d.values.length = d0.values.length) :
    (compositeDensity (d0 :: ds) = Except.error MergeErr.shapeMismatch ↔
      ¬ ∀ d ∈ d0 :: ds, allclose d.grid d0.grid = true)
    ∧ ∀ c, compositeDensity (d0 :: ds) = Except.ok c →
        ∀ d ∈ d0 :: ds, allclose d.grid d0.grid = true := by
  have hL : ((d0 :: ds).all fun d => decide (d.values.length = d0.values.length)) = true := by
    rw [List.all_eq_true]
    intro d hd
    rw [decide_eq_true_eq]
    exact hlen d hd
  rw [compositeDensity, if_pos hL]
  by_cases hG : ((d0 :: ds).all fun d => allclose d.grid d0.grid) = true
  · rw [if_pos hG]
    constructor
    · constructor
      · intro h
        exact absurd h (by simp)
      · intro h
        exact absurd (List.all_eq_true.mp hG) h
    · intro c _ d hd
      exact List.all_eq_true.mp hG d hd
  · rw [if_neg hG]
    constructor
    · constructor
      · intro _
        intro hall
        exact hG (List.all_eq_true.mpr hall)
      · intro _
        rfl
    · intro c h
      exact absurd h (by simp)

/-- Counterexample for C4 as frozen: two densities whose grids are `[0]`
and `[1/1000000000]` — not identical — still produce a composite
successfully, because `np.allclose` accepts the difference of `1e-9`
within its default absolute tolerance of `1e-8`. -/
theorem C4_counterexample :
    compositeDensity [dEx, ⟨[1/1000000000], [1], [1]⟩] =
      Except.ok ⟨[0], [1], [1]⟩
    ∧ dEx.grid ≠ (⟨[1/1000000000], [1], [1]⟩ : Density).grid := by
  constructor
  · norm_num [compositeDensity, dEx, vsum, allclose, closeQ, Density.init, listMax,
      abs_of_pos, abs_zero]
  · norm_num [dEx]

/-- Witness for C4 (amended) at a concrete mismatching grid. -/
theorem C4_witness :
    compositeDensity [dEx, ⟨[1], [1], [1]⟩] = Except.error MergeErr.shapeMismatch :=
  (C4_grid_mismatch dEx [⟨[1], [1], [1]⟩] (by
      intro d hd
      rcases List.mem_cons.mp hd with rfl | hd2
      · rfl
      · rcases List.mem_singleton.mp hd2 with rfl
        rfl)).1.mpr
    (by
      intro hall
      have := hall ⟨[1], [1], [1]⟩ (by simp)
      rw [allclose, Bool.and_eq_true] at this
      have h2 := List.all_eq_true.mp this.2 (1, 0) (by simp [dEx, List.zip_cons_cons])
      rw [closeQ, decide_eq_true_eq] at h2
      norm_num at h2)

/-- C6: the `CompositeDensity` of two densities sharing an identical
grid (and value rows of equal length, as `np.vstack` requires) whose
`values` each sum to `1` is the renormalized elementwise sum: its
`values` field equals the elementwise sum divided by its total, and that
field sums to `1`. -/
theorem C6_composite_of_two (d1 d2 : Density) (hg : d2.grid = d1.grid)
    (hlen : d1.values.length = d2.values.length)
    (h1 : d1.values.sum = 1) (h2 : d2.values.sum = 1) :
    compositeDensity [d1, d2] =
      Except.ok (Density.init d1.grid (List.zipWith (· + ·) d1.values d2.values))
    ∧ (Density.init d1.grid (List.zipWith (· + ·) d1.values d2.values)).values =
        (List.zipWith (· + ·) d1.values d2.values).map
          (· / (List.zipWith (· + ·) d1.values d2.values).sum)
    ∧ (Density.init d1.grid (List.zipWith (· + ·) d1.values d2.values)).values.sum = 1 := by
  have hsum : (List.zipWith (· + ·) d1.values d2.values).sum = 2 := by
    rw [sum_zipWith_add d1.values d2.values hlen, h1, h2]
    norm_num
  refine ⟨?_, rfl, ?_⟩
  · rw [compositeDensity,
      if_pos (by
        rw [List.all_eq_true]
        intro d hd
        rw [decide_eq_true_eq]
        rcases List.mem_cons.mp hd with rfl | hd2
        · rfl
        · rcases List.mem_singleton.mp hd2 with rfl
          exact hlen.symm),
      if_pos (by
        rw [List.all_eq_true]
        intro d hd
        rcases List.mem_cons.mp hd with rfl | hd2
        · exact allclose_self _
        · rcases List.mem_singleton.mp hd2 with rfl
          rw [hg]
          exact allclose_self _)]
    rw [show vsum ([d1, d2].map (·.values)) =
        List.zipWith (· + ·) d1.values d2.values from rfl]
  · show (List.map (· / (List.zipWith (· + ·) d1.values d2.values).sum) _).sum = 1
    rw [sum_map_div, div_self (by rw [hsum]; norm_num)]

/-- Witness for C6 at two copies of the unit-mass density `dEx`. -/
theorem C6_witness :
    compositeDensity [dEx, dEx] =
      Except.ok (Density.init dEx.grid (List.zipWith (· + ·) dEx.values dEx.values))
    ∧ (Density.init dEx.grid (List.zipWith (· + ·) dEx.values dEx.values)).values =
        (List.zipWith (· + ·) dEx.values dEx.values).map
          (· / (List.zipWith (· + ·) dEx.values dEx.values).sum)
    ∧ (Density.init dEx.grid (List.zipWith (· + ·) dEx.values dEx.values)).values.sum = 1 :=
  C6_composite_of_two dEx dEx rfl rfl (by norm_num [dEx]) (by norm_num [dEx])

/-! Helper lemmas tracking allocation ids through the merge round. -/

lemma mergedRegion_id {cnt : ℕ} {r1 r2 nr : Region}
    (h : mergedRegion cnt r1 r2 = .ok nr) : nr.id = cnt := by
  rw [mergedRegion] at h
  split at h
  · exact absurd h (by simp)
  split at h
  · exact absurd h (by simp)
  injection h with h2
  rw [← h2]
  rfl

lemma mergeRoundGo_ids :
    ∀ (pairs : List (Rule × Rule)) (d : List (Rule × Region)) (tR : Finset Rule)
      (cnt : ℕ) (out : List (Rule × Region)) (cnt2 : ℕ),
      mergeRoundGo pairs d tR cnt = .ok (out, cnt2) →
      cnt ≤ cnt2 ∧ ∀ kv ∈ out, kv ∈ d ∨ cnt ≤ kv.2.id := by
  intro pairs
  induction pairs with
  | nil =>
      intro d tR cnt out cnt2 h
      rw [mergeRoundGo] at h
      injection h with h2
      obtain ⟨h3, h4⟩ := Prod.mk.inj h2
      refine ⟨le_of_eq h4, ?_⟩
      intro kv hkv
      rw [← h3] at hkv
      exact Or.inl (mem_dremoveAll hkv)
  | cons p rest ih =>
      intro d tR cnt out cnt2 h
      obtain ⟨f1, f2⟩ := p
      rw [mergeRoundGo] at h
      split at h
      · exact absurd h (by simp)
      rename_i r1 h1
      split at h
      · exact absurd h (by simp)
      rename_i r2 h2
      split at h
      · exact absurd h (by simp)
      rename_i nr h3
      obtain ⟨hle, hmem⟩ := ih _ _ _ _ _ h
      refine ⟨by omega, ?_⟩
      intro kv hkv
      rcases hmem kv hkv with hin | hid
      · rcases mem_dinsert hin with rfl | hin2
        · right
          rw [mergedRegion_id h3]
        · exact Or.inl hin2
      · right
        omega

lemma stage1Loop_ids :
    ∀ (fuel : ℕ) (th : ℚ) (d : List (Rule × Region)) (cnt : ℕ)
      (out : List (Rule × Region)) (cnt2 : ℕ),
      stage1Loop th fuel d cnt = .ok (out, cnt2) →
      ∀ kv ∈ out, kv ∈ d ∨ cnt ≤ kv.2.id := by
  intro fuel
  induction fuel with
  | zero =>
      intro th d cnt out cnt2 h
      rw [stage1Loop] at h
      exact absurd h (by simp)
  | succ n ih =>
      intro th d cnt out cnt2 h
      rw [stage1Loop] at h
      by_cases hc : (stage_1_merge_candidates d th).isEmpty
      · rw [if_pos hc] at h
        injection h with h2
        obtain ⟨h3, _h4⟩ := Prod.mk.inj h2
        intro kv hkv
        rw [← h3] at hkv
        exact Or.inl hkv
      · rw [if_neg hc] at h
        split at h
        · exact absurd h (by simp)
        rename_i r hr
        intro kv hkv
        obtain ⟨hle, hmem⟩ := mergeRoundGo_ids _ _ _ _ r.1 r.2 hr
        rcases ih th r.1 r.2 out cnt2 h kv hkv with hin | hid
        · exact hmem kv hin
        · right
          omega

/-- C8: `stage_1_merge_regions` works on a copy of the mapping of the
caller (`regions = dict(regions)`), which value semantics renders
implicit here, and never modifies a Region in place: when all input
regions carry allocation ids below the counter `cnt`, every entry of the
output mapping either is literally one of the input entries (the same
key bound to the same unmodified Region value) or carries an id at or
above `cnt` — i.e. it is a Region newly constructed during the call, and
in particular not one of the input objects. -/
theorem C8_no_input_mutation (regions : List (Rule × Region))
    (mf : Option (List (Rule × Rule))) (th : ℚ) (cnt fuel : ℕ)
    (hid : ∀ kv ∈ regions, kv.2.id < cnt) :
    ∀ out cnt2, stage_1_merge_regions regions mf th cnt fuel = .ok (out, cnt2) →
      ∀ kv ∈ out, kv ∈ regions ∨ (cnt ≤ kv.2.id ∧ kv ∉ regions) := by
  intro out cnt2 h kv hkv
  have base : kv ∈ regions ∨ cnt ≤ kv.2.id := by
    cases mf with
    | some pairs =>
        rw [stage_1_merge_regions] at h
        exact (mergeRoundGo_ids pairs regions ∅ cnt out cnt2 h).2 kv hkv
    | none =>
        rw [stage_1_merge_regions] at h
        exact stage1Loop_ids fuel th regions cnt out cnt2 h kv hkv
  rcases base with hin | hge
  · exact Or.inl hin
  · right
    exact ⟨hge, fun hin => absurd hge (not_le.mpr (hid kv hin))⟩

/-- Two regions whose features cannot merge (an equality rule and an
interval rule): the stage-1 loop finds no candidates and returns the
input unchanged. -/
def exW : List (Rule × Region) :=
  [(.equality 1, ⟨0, .equality 1, dEx, {0}⟩),
   (.interval (some 0) (some 1), ⟨1, .interval (some 0) (some 1), dEx, {0}⟩)]

/-- Witness for C8 at the two-region no-candidate example. -/
theorem C8_witness :
    (Rule.equality 1, (⟨0, Rule.equality 1, dEx, {0}⟩ : Region)) ∈ exW
    ∨ (10 ≤ (⟨0, Rule.equality 1, dEx, {0}⟩ : Region).id
        ∧ (Rule.equality 1, (⟨0, Rule.equality 1, dEx, {0}⟩ : Region)) ∉ exW) :=
  C8_no_input_mutation exW none (3/4) 10 1 (by decide) exW 10
    (by
      norm_num [stage_1_merge_regions, stage1Loop, stage_1_merge_candidates,
        candidatePairs, exW, dEx, Rule.can_merge_with, List.filterMap_cons,
        List.filter_cons])
    (Rule.equality 1, (⟨0, Rule.equality 1, dEx, {0}⟩ : Region))
    (by decide)

/-! Helper lemmas about the greedy independent-set partition. -/

lemma place_join_perm {α : Type} (E : α → α → Bool) (x : α) :
    ∀ acc : List (List α), (place E x acc).flatten.Perm (x :: acc.flatten)
  | [] => by
      rw [place]
      simp
  | s :: rest => by
      rw [place]
      by_cases h : s.all (fun y => !E x y)
      · rw [if_pos h]
        simp
      · rw [if_neg h]
        have ih := place_join_perm E x rest
        have h3 := ih.append_left s
        refine List.Perm.trans ?_ (List.Perm.trans h3 List.perm_middle)
        simp

lemma foldl_place_join_perm {α : Type} (E : α → α → Bool) :
    ∀ (nodes : List α) (acc : List (List α)),
      (nodes.foldl (fun a x => place E x a) acc).flatten.Perm (acc.flatten ++ nodes)
  | [], acc => by simp
  | x :: ns, acc => by
      rw [List.foldl_cons]
      have ih := foldl_place_join_perm E ns (place E x acc)
      refine List.Perm.trans ih ?_
      have h1 := (place_join_perm E x acc).append_right ns
      exact List.Perm.trans h1 List.perm_middle.symm

lemma place_pairwise {α : Type} {E : α → α → Bool} (x : α) :
    ∀ acc : List (List α),
      (∀ s ∈ acc, s.Pairwise (fun a b => E a b = false)) →
      ∀ s ∈ place E x acc, s.Pairwise (fun a b => E a b = false)
  | [], _ => by
      intro s hs
      rw [place] at hs
      rcases List.mem_singleton.mp hs with rfl
      simp
  | s0 :: rest, h => by
      intro s hs
      rw [place] at hs
      by_cases hall : s0.all (fun y => !E x y)
      · rw [if_pos hall] at hs
        rcases List.mem_cons.mp hs with rfl | hs2
        · refine List.pairwise_cons.mpr ⟨?_, h s0 (List.mem_cons_self _ _)⟩
          intro y hy
          have hy2 := List.all_eq_true.mp hall y hy
          simpa using hy2
        · exact h s (List.mem_cons_of_mem _ hs2)
      · rw [if_neg hall] at hs
        rcases List.mem_cons.mp hs with rfl | hs2
        · exact h s (List.mem_cons_self _ _)
        · exact place_pairwise x rest
            (fun t ht => h t (List.mem_cons_of_mem _ ht)) s hs2

lemma independent_sets_pairwise {α : Type} (E : α → α → Bool) (nodes : List α) :
    ∀ s ∈ independent_sets E nodes, s.Pairwise (fun a b => E a b = false) := by
  suffices h : ∀ acc : List (List α),
      (∀ s ∈ acc, s.Pairwise (fun a b => E a b = false)) →
      ∀ s ∈ nodes.foldl (fun a x => place E x a) acc,
        s.Pairwise (fun a b => E a b = false) by
    exact h [] (by intro s hs; simp at hs)
  induction nodes with
  | nil =>
      intro acc hacc
      simpa using hacc
  | cons x ns ih =>
      intro acc hacc
      rw [List.foldl_cons]
      exact ih (place E x acc) (place_pairwise x acc hacc)

lemma intersection_percentage_comm (r1 r2 : Region) :
    intersection_percentage r1 r2 = intersection_percentage r2 r1 := by
  rw [intersection_percentage, intersection_percentage]
  exact max_comm _ _

/-- C7: the sets returned by `optimize_layout` are a partition of the
input regions — their concatenation is a permutation of the input keys,
so with pairwise-distinct keys every input region lands in exactly one
returned set — and no returned set contains two distinct members whose
pairwise overlap fraction reaches `max_overlap`. -/
theorem C7_layout_partition (regions : List (Rule × Region)) (max_overlap : ℚ) :
    (optimize_layout regions max_overlap).flatten.Perm (regions.map (·.1))
    ∧ ∀ s ∈ layoutSets regions max_overlap, ∀ p ∈ s, ∀ q ∈ s, p ≠ q →
        intersection_percentage p.2 q.2 < max_overlap := by
  constructor
  · rw [optimize_layout, ← List.map_flatten]
    have hperm : (layoutSets regions max_overlap).flatten.Perm regions := by
      have h := foldl_place_join_perm (layoutEdge max_overlap) regions []
      simpa [layoutSets, independent_sets] using h
    exact hperm.map (·.1)
  · intro s hs p hp q hq hne
    have hpw := independent_sets_pairwise (layoutEdge max_overlap) regions s hs
    have hsymm : Symmetric (fun a b : Rule × Region => layoutEdge max_overlap a b = false) := by
      intro a b hab
      rw [layoutEdge] at hab ⊢
      rw [intersection_percentage_comm]
      exact hab
    have hEf := List.Pairwise.forall hsymm hpw hp hq hne
    rw [layoutEdge] at hEf
    exact not_le.mp (of_decide_eq_false hEf)

/-- Two regions with disjoint polygons used by the layout witness. -/
def exL2 : List (Rule × Region) :=
  [(.equality 1, ⟨0, .equality 1, dEx, {0}⟩),
   (.equality 2, ⟨1, .equality 2, dEx, {1}⟩)]

/-- Witness for C7 at the two disjoint-polygon regions: the returned
sets cover both keys, and the two regions placed in the same set overlap
strictly below the threshold. -/
theorem C7_witness :
    (optimize_layout exL2 (1/20)).flatten.Perm [Rule.equality 1, Rule.equality 2]
    ∧ intersection_percentage
        ((Rule.equality 2, (⟨1, Rule.equality 2, dEx, {1}⟩ : Region)) : Rule × Region).2
        ((Rule.equality 1, (⟨0, Rule.equality 1, dEx, {0}⟩ : Region)) : Rule × Region).2
      < 1/20 := by
  constructor
  · exact (C7_layout_partition exL2 (1/20)).1
  · refine (C7_layout_partition exL2 (1/20)).2
      [(Rule.equality 2, ⟨1, Rule.equality 2, dEx, {1}⟩),
        (Rule.equality 1, ⟨0, Rule.equality 1, dEx, {0}⟩)]
      ?_ _ (by simp) _ (by simp) (by decide)
    norm_num [layoutSets, independent_sets, place, layoutEdge,
      intersection_percentage, exL2, dEx]

end EmbAnnot
